import Mathlib

/-!
Verification of the TextStimulationApp segment parser and playback
controller (`TextDisplay.tsx`) against its natural-language specification.

The definitions are shallow embeddings of the TypeScript source:
JavaScript strings become `String`/`List Char`, `string.trim()` becomes
`jsTrim`, `indexOf`/`substring` splitting becomes `takeWhile`/`dropWhile`
splitting, and network/audio side effects become explicit oracles
(`String → Option ProbeResponse`) or labelled transition systems.
Definitions come first, followed by the lemmas and the claim theorems.
-/

/-!
Verification of the TextStimulationApp segment parser and playback controller
(`TextDisplay.tsx`) against its natural-language specification.

The definitions below are shallow embeddings of the TypeScript source:
JavaScript strings become `String`/`List Char`, `string.trim()` becomes
`jsTrim`, `indexOf`/`substring` splitting becomes `List.span`-based
splitting, and network/audio side effects become explicit oracles
(`String → Option ProbeResponse`) or labelled transition systems.
-/

/-- The set of characters removed by JavaScript `String.prototype.trim`
(ECMAScript WhiteSpace plus LineTerminator). -/
def isJsWs (c : Char) : Bool :=
  let n := c.toNat
  n == 0x9 || n == 0xA || n == 0xB || n == 0xC || n == 0xD || n == 0x20 ||
  n == 0xA0 || n == 0x1680 || (0x2000 ≤ n && n ≤ 0x200A) ||
  n == 0x2028 || n == 0x2029 || n == 0x202F || n == 0x205F ||
  n == 0x3000 || n == 0xFEFF

/-- Trim leading and trailing JS whitespace from a character list
(embedding of `String.prototype.trim`). -/
def trimL (cs : List Char) : List Char :=
  ((cs.dropWhile isJsWs).reverse.dropWhile isJsWs).reverse

/-- Embedding of JavaScript `s.trim()`. -/
def jsTrim (s : String) : String :=
  String.mk (trimL s.data)

/-- Embedding of JavaScript `s.replace(/\r$/, '')`: remove one trailing
carriage return, if present. -/
def stripTrailingCRL (cs : List Char) : List Char :=
  match cs.reverse with
  | c :: rest => if c = '\r' then rest.reverse else cs
  | [] => cs

/-- Embedding of JavaScript `text.split('\n')` over the character list:
the empty string yields one empty row, and every newline starts a new
row (so a trailing newline produces a trailing empty row). -/
def splitLines : List Char → List (List Char)
  | [] => [[]]
  | c :: cs =>
    if c = '\n' then
      [] :: splitLines cs
    else
      match splitLines cs with
      | h :: t => (c :: h) :: t
      | [] => [[c]]

/-- One unit of display/playback, as parsed from a CSV-like row
(the `Segment` type of `TextDisplay.tsx`). -/
structure Segment where
  voiceFile : String
  text : String
  furigana : Option String
  isLineBreak : Bool
deriving Repr, DecidableEq

/-- The segment pushed for an empty row
(`{ voiceFile: '', text: '', isLineBreak: true }`). -/
def lineBreakSegment : Segment :=
  ⟨"", "", none, true⟩

/-- Split a non-empty row at its first two commas, exactly as the source
does with `indexOf(',')` / `indexOf(',', first+1)` / `substring(...)`:
`takeWhile (· ≠ ',')` is `row.substring(0, firstCommaIndex)` (or the whole
row when `indexOf` returns `-1`, i.e. `dropWhile` returns `[]`), and the
tail of `dropWhile (· ≠ ',')` is `row.substring(firstCommaIndex + 1)`.
Returns (`voiceFile`, `text`, trimmed remainder after the second comma,
if a second comma exists). -/
def parseRowFields (cs : List Char) : List Char × List Char × Option (List Char) :=
  match cs.dropWhile (fun c => c ≠ ',') with
  | [] =>
    -- no comma at all: `voiceFile = row.trim(); text = voiceFile`
    (trimL cs, trimL cs, none)
  | _ :: r1 =>
    let a := cs.takeWhile (fun c => c ≠ ',')
    match r1.dropWhile (fun c => c ≠ ',') with
    | [] =>
      -- exactly one comma
      (trimL a, trimL r1, none)
    | _ :: r3 =>
      -- two or more commas: everything after the second comma is furigana
      (trimL a, trimL (r1.takeWhile (fun c => c ≠ ',')), some (trimL r3))

/-- Parse one row (carriage return already stripped) into an optional
segment: empty-after-trim rows give the line-break segment, rows whose
parsed `text` is empty are dropped (`none`), and an empty trimmed
furigana remainder becomes `undefined` (`none`). -/
def parseRow (row : String) : Option Segment :=
  let cs := row.data
  if trimL cs = [] then
    some lineBreakSegment
  else
    match parseRowFields cs with
    | (v, t, f) =>
      if t = [] then
        none
      else
        some ⟨String.mk v, String.mk t,
              (match f with
               | some fs => if fs = [] then none else some (String.mk fs)
               | none => none),
              false⟩

/-- Embedding of the parse loop of the load effect: split the fetched text
on `'\n'`, strip a trailing `'\r'` from each row, and collect the parsed
segments in row order. -/
def parseContent (text : String) : List Segment :=
  ((splitLines text.data).map stripTrailingCRL).filterMap
    (fun row => parseRow (String.mk row))

/-- The failure cases of the load effect after a successful fetch. -/
inductive LoadError where
  | emptyFile     -- `if (!text || text.trim() === '') throw`
  | noSegments    -- `if (parsedSegments.length === 0) throw`
deriving Repr, DecidableEq

/-- Embedding of the post-fetch part of the load effect: reject empty or
whitespace-only content, parse, and reject a parse with zero segments. -/
def loadSegments (text : String) : Except LoadError (List Segment) :=
  if jsTrim text = "" then
    Except.error LoadError.emptyFile
  else
    let segs := parseContent text
    if segs = [] then Except.error LoadError.noSegments else Except.ok segs

/-!
Claim-side formulation of the splitting rule, written from the
specification's words ("split on the first two comma characters only",
"0 commas / 1 comma / ≥ 2 commas") via a split-on-every-comma function,
to be compared with the source's `indexOf`-based splitting.
-/

/-- Split a character list at every comma, like JavaScript
`row.split(',')`: `[]` yields `[[]]`, and each comma starts a new part. -/
def splitCommas : List Char → List (List Char)
  | [] => [[]]
  | c :: cs =>
    if c = ',' then
      [] :: splitCommas cs
    else
      match splitCommas cs with
      | h :: t => (c :: h) :: t
      | [] => [[c]]

/-- Rejoin comma-separated parts (inverse of `splitCommas`). -/
def joinCommas : List (List Char) → List Char
  | [] => []
  | [p] => p
  | p :: ps => p ++ ',' :: joinCommas ps

/-- The splitting rule exactly as claim C1 states it: the part before the
first comma is trimmed, but the part after the first (resp. the first and
middle parts around the second) comma is taken verbatim. -/
def c1LiteralFields (cs : List Char) : List Char × List Char × Option (List Char) :=
  match splitCommas cs with
  | [] => ([], [], none)
  | [_] => (trimL cs, trimL cs, none)
  | [a, b] => (trimL a, b, none)
  | a :: b :: rest => (a, b, some (trimL (joinCommas rest)))

/-- The splitting rule as amended: every extracted field is trimmed
(0 commas: the whole trimmed line twice; 1 comma: both parts trimmed;
≥ 2 commas: first and middle parts trimmed and the rejoined remainder
after the second comma trimmed as furigana). -/
def c1AmendedFields (cs : List Char) : List Char × List Char × Option (List Char) :=
  match splitCommas cs with
  | [] => ([], [], none)
  | [_] => (trimL cs, trimL cs, none)
  | [a, b] => (trimL a, trimL b, none)
  | a :: b :: rest => (trimL a, trimL b, some (trimL (joinCommas rest)))

/-- Segment construction on top of the amended field split (the row is
assumed non-blank; a row whose trimmed `text` field is empty yields no
segment, and an empty trimmed furigana remainder is absent). -/
def c1AmendedRow (row : String) : Option Segment :=
  match c1AmendedFields row.data with
  | (v, t, f) =>
    if t = [] then
      none
    else
      some ⟨String.mk v, String.mk t,
            (match f with
             | some fs => if fs = [] then none else some (String.mk fs)
             | none => none),
            false⟩

/-- Claim C7's row rule as stated: a line-break segment only for rows that
are empty after removing a trailing carriage return; every other row goes
through the comma-splitting rule (so a whitespace-only row would be
dropped for having empty text). -/
def c7ClaimRow (row : String) : Option Segment :=
  if row.data = [] then
    some lineBreakSegment
  else
    match parseRowFields row.data with
    | (v, t, f) =>
      if t = [] then
        none
      else
        some ⟨String.mk v, String.mk t,
              (match f with
               | some fs => if fs = [] then none else some (String.mk fs)
               | none => none),
              false⟩

/-- Embedding of the initialization loop of the load effect:
`let i = 0; while (i < segs.length && segs[i]?.isLineBreak) i++;`
realized by structural recursion over the yet-unvisited suffix. -/
def firstNonLineBreakAux : List Segment → Nat → Nat
  | [], i => i
  | s :: rest, i => if s.isLineBreak then firstNonLineBreakAux rest (i + 1) else i

/-- `firstNonLineBreakIndex` as computed at lines 278-282 of the source. -/
def firstNonLineBreak (segs : List Segment) : Nat :=
  firstNonLineBreakAux segs 0

/-- The current-segment index right after the load effect finishes: on
success the first-non-line-break index, on failure the value 0 set before
the fetch. -/
def initialCurrentSegment (text : String) : Nat :=
  match loadSegments text with
  | Except.ok segs => firstNonLineBreak segs
  | Except.error _ => 0

/-!
Audio path resolution (`resolveAudioPath`, lines 713-824 of the source).
Network probing becomes an oracle `net : String → Option ProbeResponse`
(`none` models a fetch that throws; the loop then tries the next
candidate), and `decodeAudioData` success becomes the `decodable` field.
-/

/-- Embedding of the regex `\.[^/.]+$`: split `cs` into the part before
the last dot and a non-empty extension containing neither `.` nor `/`;
`none` when the regex does not match. -/
def splitLastExt (cs : List Char) : Option (List Char × List Char) :=
  let r := cs.reverse
  let ext := r.takeWhile (fun c => c ≠ '.' && c ≠ '/')
  match r.dropWhile (fun c => c ≠ '.' && c ≠ '/') with
  | '.' :: before => if ext.isEmpty then none else some (before.reverse, ext.reverse)
  | _ => none

/-- Embedding of `/\.[^/.]+$/.test(s)`. -/
def hasExt (s : String) : Bool :=
  (splitLastExt s.data).isSome

/-- Embedding of `s.replace(/\.[^/.]+$/, '')`. -/
def stripExtStr (s : String) : String :=
  match splitLastExt s.data with
  | some (b, _) => String.mk b
  | none => s

/-- Embedding of `s.replace(/^[0-9]+_?/, '')`: strip a non-empty leading
digit run and one optional underscore after it. -/
def stripLeadingNumber (s : String) : String :=
  if (s.data.takeWhile Char.isDigit).isEmpty then
    s
  else
    match s.data.dropWhile Char.isDigit with
    | '_' :: rest => String.mk rest
    | rest => String.mk rest

/-- Order-preserving de-duplication keeping first occurrences, the
behaviour of `Array.from(new Set(...))`. -/
def dedupFirstAux (seen : List String) : List String → List String
  | [] => []
  | a :: l => if a ∈ seen then dedupFirstAux seen l else a :: dedupFirstAux (a :: seen) l

/-- `Array.from(new Set(l))`. -/
def dedupFirst (l : List String) : List String :=
  dedupFirstAux [] l

/-- The voice-mode setting of `TextAppSettings`. -/
inductive VoiceMode where
  | voiceOn
  | voiceOff
  | fullText
deriving Repr, DecidableEq

/-- The settings object consumed by `TextDisplay` (fields used by the
audio-path resolver plus the voice mode). -/
structure TextAppSettings where
  gradeFolder : String
  storyFilename : String
  voiceMode : VoiceMode
deriving Repr, DecidableEq

/-- `storyDirCandidates`: the story file name without extension, then the
same without its leading number prefix, empties removed, de-duplicated. -/
def storyDirCandidates (settings : TextAppSettings) : List String :=
  let storyBaseName := stripExtStr settings.storyFilename
  let storyNameNoNumber := stripLeadingNumber storyBaseName
  dedupFirst (([storyBaseName, storyNameNoNumber]).filter (fun s => s ≠ ""))

/-- `fileCandidates`: the source builds an array of five nullable entries
(`hasExtension ? raw : null`, the two synthesized extensions when there is
no extension, and the two "just in case" synthesized extensions when the
base differs from the raw name), drops the nulls with `filter(Boolean)`,
and de-duplicates with a `Set`. -/
def fileCandidates (voiceFile : String) : List String :=
  let rawVoiceFile := jsTrim voiceFile
  let he := hasExt rawVoiceFile
  let baseVoiceName := if he then stripExtStr rawVoiceFile else rawVoiceFile
  dedupFirst
    (([ (if he = true then some rawVoiceFile else none),
        (if he = false ∧ baseVoiceName ≠ "" then some (baseVoiceName ++ ".wav") else none),
        (if he = false ∧ baseVoiceName ≠ "" then some (baseVoiceName ++ ".mp3") else none),
        (if baseVoiceName ≠ "" ∧ baseVoiceName ≠ rawVoiceFile then some (baseVoiceName ++ ".wav") else none),
        (if baseVoiceName ≠ "" ∧ baseVoiceName ≠ rawVoiceFile then some (baseVoiceName ++ ".mp3") else none)
      ]).filterMap id)

/-- The stable `sort` with the extension-first comparator: a stable sort
by a two-valued key is exactly the partition keeping relative order. -/
def sortExtFirst (l : List String) : List String :=
  l.filter (fun f => hasExt f) ++ l.filter (fun f => !hasExt f)

/-- UTF-8 bytes of a character (as `Nat`s below 256). -/
def utf8Bytes (c : Char) : List Nat :=
  let n := c.toNat
  if n < 0x80 then [n]
  else if n < 0x800 then [0xC0 + n / 0x40, 0x80 + n % 0x40]
  else if n < 0x10000 then
    [0xE0 + n / 0x1000, 0x80 + n / 0x40 % 0x40, 0x80 + n % 0x40]
  else
    [0xF0 + n / 0x40000, 0x80 + n / 0x1000 % 0x40, 0x80 + n / 0x40 % 0x40, 0x80 + n % 0x40]

/-- Upper-case hexadecimal digit. -/
def hexDigitChar (n : Nat) : Char :=
  if n < 10 then Char.ofNat (48 + n) else Char.ofNat (55 + n)

/-- The characters `encodeURIComponent` leaves unescaped:
`A-Z a-z 0-9 - _ . ! ~ * ' ( )`. -/
def isUnreservedChar (c : Char) : Bool :=
  let n := c.toNat
  (65 ≤ n && n ≤ 90) || (97 ≤ n && n ≤ 122) || (48 ≤ n && n ≤ 57) ||
  n == 45 || n == 95 || n == 46 || n == 33 || n == 126 || n == 42 ||
  n == 39 || n == 40 || n == 41

/-- Percent-encoding of one character per `encodeURIComponent`. -/
def encodeChar (c : Char) : List Char :=
  if isUnreservedChar c then [c]
  else (utf8Bytes c).flatMap (fun b => ['%', hexDigitChar (b / 16), hexDigitChar (b % 16)])

/-- The source's `encodeSegment` helper (`encodeURIComponent`). -/
def encodeSegment (s : String) : String :=
  String.mk (s.data.flatMap encodeChar)

/-- The probed URL: `${basePath}/data/voice/${grade}/${dir}/${fileName}`
with each path segment percent-encoded. -/
def mkVoicePath (basePath gradeFolder dir fileName : String) : String :=
  basePath ++ "/data/voice/" ++ encodeSegment gradeFolder ++ "/" ++
    encodeSegment dir ++ "/" ++ encodeSegment fileName

/-- What the probe loop can observe of one ranged GET response. -/
structure ProbeResponse where
  status : Nat
  contentTypeHeader : Option String
  decodable : Bool
deriving Repr, DecidableEq

/-- `Response.ok` (fetch specification: status in 200-299). -/
def respOk (r : ProbeResponse) : Bool :=
  200 ≤ r.status && r.status < 300

/-- `response.headers.get('content-type') || ''`. -/
def probeContentType (r : ProbeResponse) : String :=
  r.contentTypeHeader.getD ""

/-- `pre` is a prefix of `s` (`String.prototype.startsWith`). -/
def startsWithL (pre s : String) : Bool :=
  pre.data.isPrefixOf s.data

/-- The acceptance test of the probe loop (lines 778-804): the response
must be ok or 206; accept when the content-type starts with `audio/`;
otherwise, only for a 206 response with empty content-type, accept when
the audio context exists and the retrieved bytes decode; in every other
case the candidate is rejected and the loop continues. -/
def probeAccept (ctxAvailable : Bool) (r : ProbeResponse) : Bool :=
  if respOk r || r.status == 206 then
    if startsWithL "audio/" (probeContentType r) then
      true
    else if r.status == 206 && probeContentType r == "" then
      ctxAvailable && r.decodable
    else
      false
  else
    false

/-- One probe: a throwing fetch (`none`) is treated like a rejection. -/
def probeOk (ctxAvailable : Bool) (resp : Option ProbeResponse) : Bool :=
  match resp with
  | none => false
  | some r => probeAccept ctxAvailable r

/-- Embedding of `resolveAudioPath`: build directory and file candidates,
bail out with `null` when either list is empty, sort file candidates
extension-first, probe every directory × file pair in order, and return
the first accepted path (`null` when all candidates are exhausted). -/
def resolveAudioPath (ctxAvailable : Bool) (net : String → Option ProbeResponse)
    (basePath voiceFile : String) (settings : TextAppSettings) : Option String :=
  let dirs := storyDirCandidates settings
  let files := fileCandidates voiceFile
  if files.isEmpty || dirs.isEmpty then
    none
  else
    let sorted := sortExtFirst files
    (dirs.flatMap (fun dir => sorted.map (fun fileName =>
      mkVoicePath basePath settings.gradeFolder dir fileName))).find?
      (fun p => probeOk ctxAvailable (net p))

/-!
Claim-side formulation (C4): directory candidates, file candidates and
probe order exactly as the claim words them.
-/

/-- C4's directory candidates: story filename without extension, followed
by the same with the leading numeric prefix stripped, de-duplicated
(empty names dropped). -/
def claimDirCandidates (settings : TextAppSettings) : List String :=
  dedupFirst (([stripExtStr settings.storyFilename,
    stripLeadingNumber (stripExtStr settings.storyFilename)]).filter (fun s => s ≠ ""))

/-- The base file name C4 speaks about: the trimmed audioRef without its
extension when it has one, otherwise the trimmed audioRef itself. -/
def claimBase (voiceFile : String) : String :=
  if hasExt (jsTrim voiceFile) then stripExtStr (jsTrim voiceFile) else jsTrim voiceFile

/-- C4's file candidates: the audioRef as-is first when it already carries
an extension, followed by the base name with `.wav` then `.mp3` appended,
de-duplicated. -/
def claimFileCandidates (voiceFile : String) : List String :=
  dedupFirst ((if hasExt (jsTrim voiceFile) = true then [jsTrim voiceFile] else []) ++
    (if claimBase voiceFile ≠ "" then
      [claimBase voiceFile ++ ".wav", claimBase voiceFile ++ ".mp3"] else []))

/-- C4's probe order: every (directory × file) pair, directory-major. -/
def claimVoicePaths (basePath voiceFile : String) (settings : TextAppSettings) : List String :=
  (claimDirCandidates settings).flatMap (fun dir =>
    (claimFileCandidates voiceFile).map (fun fileName =>
      mkVoicePath basePath settings.gradeFolder dir fileName))

/-- Concrete settings for the claim's `audioRef = "001"` example. -/
def exampleSettings : TextAppSettings :=
  ⟨"g1", "story.txt", VoiceMode.voiceOn⟩

/-- A server where only the `.mp3` asset exists: the `.wav` probe returns
404 and the `.mp3` probe returns an audio-typed 200. -/
def exampleNet (p : String) : Option ProbeResponse :=
  if p = "/data/voice/g1/story/001.mp3" then some ⟨200, some "audio/mpeg", true⟩
  else some ⟨404, none, false⟩

/-- `content-type` header missing on the response. -/
def ctAbsent (r : ProbeResponse) : Bool :=
  r.contentTypeHeader.isNone

/-- The acceptance condition exactly as claim C5 states it: successful
response, and content-type indicates audio or (content-type absent and the
bytes decode as audio). -/
def claimAccept (r : ProbeResponse) : Bool :=
  respOk r && (startsWithL "audio/" (probeContentType r) || (ctAbsent r && r.decodable))

/-- The acceptance condition as amended from the code: ok-or-206 response,
and content-type starting with `audio/`, or a 206 response with
absent/empty content-type whose bytes decode as audio while the audio
context is available. -/
def amendedAccept (ctxAvailable : Bool) (r : ProbeResponse) : Bool :=
  (respOk r || r.status == 206) &&
    (startsWithL "audio/" (probeContentType r) ||
      (r.status == 206 && probeContentType r == "" && ctxAvailable && r.decodable))

/-- A successful 200 response with no content-type whose bytes decode as
audio. -/
def c5Response : ProbeResponse :=
  ⟨200, none, true⟩

/-!
Furigana rendering (`renderTextWithFurigana`, lines 870-957). The JSX
output becomes a list of render items (plain runs and ruby-annotated
ideographs).
-/

/-- The code's ideograph test: the regex `[一-龯]`. -/
def isKanji (c : Char) : Bool :=
  0x4E00 ≤ c.toNat && c.toNat ≤ 0x9FAF

/-- The claim's ideograph test: the full CJK Unified Ideographs block
(U+4E00 to U+9FFF). -/
def claimIsCJK (c : Char) : Bool :=
  0x4E00 ≤ c.toNat && c.toNat ≤ 0x9FFF

/-- `Array.from(text.matchAll(kanjiRegex))`: the ideograph occurrences of
the text with their positions, in order. -/
def kanjiMatches (cs : List Char) : List (Nat × Char) :=
  cs.enum.filter (fun p => isKanji p.2)

/-- `furigana.includes(',')`. -/
def containsComma (f : String) : Bool :=
  f.data.contains ','

/-- `furigana.split(',').map(f => f.trim())`. -/
def furiganaReadings (f : String) : List String :=
  (splitCommas f.data).map (fun p => String.mk (trimL p))

/-- The `furiganaByIndex` map of the source, as an association list keyed
by match position: with commas, the i-th non-empty trimmed reading is
stored under the i-th match's position (readings beyond the match count
are ignored by the `index < furiganaList.length` guard); without commas,
the whole furigana string is stored under the first match's position. -/
def furiganaByIndex (f : String) (ms : List (Nat × Char)) : List (Nat × String) :=
  if containsComma f then
    (ms.zip (furiganaReadings f)).filterMap (fun p =>
      if p.2 ≠ "" then some (p.1.1, p.2) else none)
  else
    match ms with
    | [] => []
    | m :: _ => [(m.1, f)]

/-- One piece of the rendered output: a plain text run or a ruby-annotated
base. -/
inductive RenderItem where
  | plain (s : String)
  | ruby (base : String) (reading : String)
deriving Repr, DecidableEq

/-- The render loop of the source: for each match, push the plain text
since `lastIndex`, then the ideograph (ruby-annotated when the map holds a
truthy reading for its position), and finally push the remaining text. -/
def renderLoop (cs : List Char) (fmap : List (Nat × String)) :
    List (Nat × Char) → Nat → List RenderItem
  | [], lastIndex =>
    if lastIndex < cs.length then
      [RenderItem.plain (String.mk (cs.drop lastIndex))]
    else
      []
  | (i, k) :: ms, lastIndex =>
    (if lastIndex < i then
      [RenderItem.plain (String.mk ((cs.drop lastIndex).take (i - lastIndex)))]
     else
      []) ++
    (match fmap.lookup i with
     | some furi => if furi ≠ "" then
         [RenderItem.ruby (String.mk [k]) furi]
       else
         [RenderItem.plain (String.mk [k])]
     | none => [RenderItem.plain (String.mk [k])]) ++
    renderLoop cs fmap ms (i + 1)

/-- Embedding of `renderTextWithFurigana`: plain text when there is no
(truthy) furigana or no ideograph in the text; otherwise the render loop
over the ideograph matches with the furigana-by-position map. -/
def renderTextWithFurigana (text : String) (furigana : Option String) : List RenderItem :=
  match furigana with
  | none => [RenderItem.plain text]
  | some f =>
    if f = "" then
      [RenderItem.plain text]
    else
      let ms := kanjiMatches text.data
      if ms.isEmpty then
        [RenderItem.plain text]
      else
        renderLoop text.data (furiganaByIndex f ms) ms 0

/-- The ruby annotations of a rendered output, in order. -/
def rubyPairs (items : List RenderItem) : List (String × String) :=
  items.filterMap (fun it =>
    match it with
    | RenderItem.ruby b r => some (b, r)
    | RenderItem.plain _ => none)

/-- The annotation assignment exactly as the (amended) claim words it,
over the ideograph occurrences of the text in order: with commas, the i-th
trimmed reading goes to the i-th occurrence, empty slots skip, extras are
ignored and missing readings leave occurrences unannotated; without
commas, the whole string goes to the first occurrence only. -/
def expectedRubyPairs (text f : String) : List (String × String) :=
  let occs := (text.data.filter (fun c => isKanji c)).map (fun c => String.mk [c])
  if containsComma f then
    (occs.zip (furiganaReadings f)).filterMap (fun p =>
      if p.2 ≠ "" then some (p.1, p.2) else none)
  else
    match occs with
    | [] => []
    | c :: _ => [(c, f)]

/-- The annotation assignment with the claim's ideograph set (the full CJK
Unified Ideographs block) instead of the code's `[一-龯]`. -/
def claimExpectedRubyPairs (text f : String) : List (String × String) :=
  let occs := (text.data.filter (fun c => claimIsCJK c)).map (fun c => String.mk [c])
  if containsComma f then
    (occs.zip (furiganaReadings f)).filterMap (fun p =>
      if p.2 ≠ "" then some (p.1, p.2) else none)
  else
    match occs with
    | [] => []
    | c :: _ => [(c, f)]

/-- U+9FB0: inside the CJK Unified Ideographs block, but outside the
code's regex range. -/
def u9FB0 : Char :=
  Char.ofNat 0x9FB0

/-!
Playback transitions (C2). The playback effect (lines 576-694): on each
voice-on segment change, `playAudio` stops the tracked
`currentSourceRef` source, resolves a path, and then either starts a new
`AudioBufferSourceNode` through the audio graph (tracking it in
`currentSourceRef`) or falls back to `new Audio(path).play()` — the
fallback element is never stored and never stopped. Each graph source's
`onended` closure runs `currentSourceRef.current = null` unconditionally
(lines 645-648): it does not check whether the reference still points at
the source that ended, so the stale `ended` of an already-stopped source
can fire after the next source has been tracked and clear the reference
out from under it. Fallback elements install no such handler. The model
gives every started playback a fresh id, tracks which ids are audibly
playing, and records which ids were started through the graph path (and
therefore carry the reference-clearing `onended` closure).
-/

/-- How one `playAudio` run ends: no resolvable path (silent), a
graph-path start, or a fallback media-element start (audio context
unavailable or decoding failed). -/
inductive PlayOutcome where
  | noPath
  | graphPlay
  | fallbackPlay
deriving Repr, DecidableEq

/-- Playback state: the tracked buffer source (`currentSourceRef`), the
playbacks currently audible (id paired with `true` for graph sources,
`false` for fallback elements), a fresh-id counter, and the ids started
through the graph path (whose `onended` closures clear the reference). -/
structure PlaybackState where
  currentSource : Option Nat
  playing : List (Nat × Bool)
  nextId : Nat
  graphIds : List Nat
deriving Repr, DecidableEq

/-- The initial state: nothing playing, nothing tracked. -/
def initPlayback : PlaybackState :=
  ⟨none, [], 0, []⟩

/-- `currentSourceRef.current.stop(); currentSourceRef.current = null` —
executed unconditionally at the start of `playAudio` (and by the
unmount/voice-off cleanups). Only the tracked source is stopped. -/
def stopCurrentSource (s : PlaybackState) : PlaybackState :=
  match s.currentSource with
  | none => s
  | some c =>
    { s with currentSource := none, playing := s.playing.filter (fun p => p.1 ≠ c) }

/-- One event of a playback session: a segment transition running
`playAudio` with a given outcome, a stop-only cleanup, or the `ended`
event of playback `i` firing (for a stopped source this is the stale,
queued event). -/
inductive PlaybackEv where
  | seg (o : PlayOutcome)
  | stopOnly
  | ended (i : Nat)
deriving Repr, DecidableEq

/-- One step of the model. A segment transition first stops the tracked
source, then (graph path) starts and tracks a fresh source, or (fallback
path) starts a fresh untracked element, or (no path) starts nothing. An
`ended i` event silences playback `i`; when `i` was started through the
graph path, its `onended` closure clears `currentSourceRef`
unconditionally — whether or not the reference still points at `i`,
exactly as in the source. -/
def playbackStep (s : PlaybackState) : PlaybackEv → PlaybackState
  | PlaybackEv.seg o =>
    let s1 := stopCurrentSource s
    match o with
    | PlayOutcome.noPath => s1
    | PlayOutcome.graphPlay =>
      { s1 with currentSource := some s1.nextId,
                playing := (s1.nextId, true) :: s1.playing,
                nextId := s1.nextId + 1,
                graphIds := s1.nextId :: s1.graphIds }
    | PlayOutcome.fallbackPlay =>
      { s1 with playing := (s1.nextId, false) :: s1.playing,
                nextId := s1.nextId + 1 }
  | PlaybackEv.stopOnly => stopCurrentSource s
  | PlaybackEv.ended i =>
    { s with currentSource := if i ∈ s.graphIds then none else s.currentSource,
             playing := s.playing.filter (fun p => p.1 ≠ i) }

/-- Run a playback session from the initial state. -/
def runPlayback (evs : List PlaybackEv) : PlaybackState :=
  evs.foldl playbackStep initPlayback

/-- Number of audio-graph sources currently audible. -/
def graphPlayingCount (s : PlaybackState) : Nat :=
  (s.playing.filter (fun p => p.2 = true)).length

/-- Total number of audible playbacks. -/
def playingCount (s : PlaybackState) : Nat :=
  s.playing.length

/-- The playback invariant: every playing id and the tracked id are below
the fresh-id counter. -/
def PlaybackInv (s : PlaybackState) : Prop :=
  (∀ p ∈ s.playing, p.1 < s.nextId) ∧
  (∀ c, s.currentSource = some c → c < s.nextId)

/-!
Preloading and disposal (C8). The preload effect (lines 321-370): clears
the path cache, then loops over the segments; at the top of each iteration
it checks the `disposed` flag and breaks; after `await resolveAudioPath`
it stores the path only when still not disposed; the effect cleanup sets
`disposed = true` and clears the cache. Below, the loop is a labelled
transition system whose steps interleave with a disposal event.
-/

/-- Observable actions of the preload loop. -/
inductive PreloadAct where
  | resolve (i : Nat)     -- resolution for segment `i` starts
  | cacheStore (i : Nat)  -- `audioPathCacheRef.current.set(i, path)`
  | skip (i : Nat)        -- iteration `i` performs no resolution/store
  | finish                -- the loop exits (break or end of segments)
  | dispose               -- the effect cleanup runs
deriving Repr, DecidableEq

/-- Position inside the loop body. -/
inductive PreloadPc where
  | top           -- before the disposed-check of the next iteration
  | afterResolve  -- suspended after `await resolveAudioPath`
  | finished      -- loop exited
deriving Repr, DecidableEq

/-- State of one preload session. -/
structure PreloadState where
  idx : Nat
  pc : PreloadPc
  disposed : Bool
  cache : List (Nat × String)
deriving Repr, DecidableEq

/-- The state at the start of the preload effect (cache just cleared). -/
def initPreload : PreloadState :=
  ⟨0, PreloadPc.top, false, []⟩

/-- Small-step semantics of the preload loop, parameterized by the segment
list and by the resolution outcome of each segment index. The disposal
event can interleave at any suspension point. -/
inductive PreloadStep (segs : List Segment) (res : Nat → Option String) :
    PreloadState → PreloadAct → PreloadState → Prop where
  | startResolve (s : PreloadState) (hpc : s.pc = PreloadPc.top)
      (hd : s.disposed = false) (hlt : s.idx < segs.length)
      (hv : (segs.getD s.idx lineBreakSegment).voiceFile ≠ "") :
      PreloadStep segs res s (PreloadAct.resolve s.idx)
        { s with pc := PreloadPc.afterResolve }
  | skipNoVoice (s : PreloadState) (hpc : s.pc = PreloadPc.top)
      (hd : s.disposed = false) (hlt : s.idx < segs.length)
      (hv : (segs.getD s.idx lineBreakSegment).voiceFile = "") :
      PreloadStep segs res s (PreloadAct.skip s.idx) { s with idx := s.idx + 1 }
  | breakDisposed (s : PreloadState) (hpc : s.pc = PreloadPc.top)
      (hd : s.disposed = true) :
      PreloadStep segs res s PreloadAct.finish { s with pc := PreloadPc.finished }
  | loopEnd (s : PreloadState) (hpc : s.pc = PreloadPc.top)
      (hd : s.disposed = false) (hge : segs.length ≤ s.idx) :
      PreloadStep segs res s PreloadAct.finish { s with pc := PreloadPc.finished }
  | afterResolveHit (s : PreloadState) (p : String)
      (hpc : s.pc = PreloadPc.afterResolve) (hd : s.disposed = false)
      (hres : res s.idx = some p) :
      PreloadStep segs res s (PreloadAct.cacheStore s.idx)
        { s with pc := PreloadPc.top, idx := s.idx + 1, cache := (s.idx, p) :: s.cache }
  | afterResolveMiss (s : PreloadState)
      (hpc : s.pc = PreloadPc.afterResolve)
      (hmiss : s.disposed = true ∨ res s.idx = none) :
      PreloadStep segs res s (PreloadAct.skip s.idx)
        { s with pc := PreloadPc.top, idx := s.idx + 1 }
  | disposeEv (s : PreloadState) (hd : s.disposed = false) :
      PreloadStep segs res s PreloadAct.dispose
        { s with disposed := true, cache := [] }

/-- A run of the preload session: a sequence of steps with its action
trace. -/
inductive PreloadTrace (segs : List Segment) (res : Nat → Option String) :
    PreloadState → List PreloadAct → PreloadState → Prop where
  | nil (s : PreloadState) : PreloadTrace segs res s [] s
  | cons {s s' s'' : PreloadState} {a : PreloadAct} {acts : List PreloadAct}
      (hstep : PreloadStep segs res s a s')
      (htr : PreloadTrace segs res s' acts s'') :
      PreloadTrace segs res s (a :: acts) s''

/-- C8: once the disposal flag is set during a preload session, the loop
(which checks the flag before each iteration and before caching) performs
no further resolution attempt and stores nothing: after the `dispose`
event, no `resolve` (and no cache store) appears in the remaining trace,
the session stays disposed, and the per-session path cache is left
cleared. -/
theorem splitCommas_ne_nil (cs : List Char) : splitCommas cs ≠ [] := by
  induction cs with
  | nil => simp [splitCommas]
  | cons c cs ih =>
    by_cases h : c = ','
    · simp [splitCommas, h]
    · simp only [splitCommas, if_neg h]
      cases hs : splitCommas cs with
      | nil => simp
      | cons a t => simp

theorem joinCommas_splitCommas (cs : List Char) :
    joinCommas (splitCommas cs) = cs := by
  induction cs with
  | nil => simp [splitCommas, joinCommas]
  | cons c cs ih =>
    by_cases h : c = ','
    · subst h
      simp only [splitCommas, if_pos rfl]
      cases hs : splitCommas cs with
      | nil => exact absurd hs (splitCommas_ne_nil cs)
      | cons a t =>
        rw [hs] at ih
        simpa [joinCommas] using ih
    · simp only [splitCommas, if_neg h]
      cases hs : splitCommas cs with
      | nil => exact absurd hs (splitCommas_ne_nil cs)
      | cons a t =>
        rw [hs] at ih
        cases t with
        | nil => simpa [joinCommas] using ih
        | cons b t2 => simpa [joinCommas] using ih

/-- The head of `splitCommas cs` is the comma-free part the source reads
with `takeWhile`, and the tail of the source's `dropWhile` rejoins the
remaining parts. -/
theorem splitCommas_take_drop (cs : List Char) :
    ∃ t, splitCommas cs = cs.takeWhile (fun c => c ≠ ',') :: t ∧
      cs.dropWhile (fun c => c ≠ ',') =
        (match t with
         | [] => ([] : List Char)
         | _ :: _ => ',' :: joinCommas t) := by
  induction cs with
  | nil => exact ⟨[], by simp [splitCommas], by simp⟩
  | cons c cs ih =>
    by_cases h : c = ','
    · subst h
      refine ⟨splitCommas cs, ?_, ?_⟩
      · simp [splitCommas, List.takeWhile_cons]
      · cases hs : splitCommas cs with
        | nil => exact absurd hs (splitCommas_ne_nil cs)
        | cons a t =>
          have hj : joinCommas (a :: t) = cs := by
            rw [← hs]; exact joinCommas_splitCommas cs
          simp [List.dropWhile_cons, hj]
    · obtain ⟨t, hsplit, hdrop⟩ := ih
      refine ⟨t, ?_, ?_⟩
      · simp only [splitCommas, if_neg h, hsplit]
        simp [List.takeWhile_cons, h]
      · simpa [List.dropWhile_cons, h] using hdrop

theorem mem_splitCommas_no_comma (cs : List Char) :
    ∀ p ∈ splitCommas cs, ',' ∉ p := by
  induction cs with
  | nil =>
    intro p hp
    simp only [splitCommas, List.mem_singleton] at hp
    subst hp; simp
  | cons c cs ih =>
    intro p hp
    by_cases h : c = ','
    · simp only [splitCommas, if_pos h, List.mem_cons] at hp
      rcases hp with rfl | hp
      · simp
      · exact ih p hp
    · simp only [splitCommas, if_neg h] at hp
      cases hs : splitCommas cs with
      | nil => exact absurd hs (splitCommas_ne_nil cs)
      | cons a t =>
        rw [hs] at hp
        rcases List.mem_cons.mp hp with rfl | hpt
        · intro hmem
          rcases List.mem_cons.mp hmem with hc | hmem2
          · exact h hc.symm
          · exact ih a (by rw [hs]; exact List.mem_cons_self a t) hmem2
        · exact ih p (by rw [hs]; exact List.mem_cons_of_mem a hpt)

theorem takeWhile_append_comma {p : List Char} (hp : ',' ∉ p) (r : List Char) :
    (p ++ ',' :: r).takeWhile (fun c => c ≠ ',') = p := by
  induction p with
  | nil => simp [List.takeWhile_cons]
  | cons c cs ih =>
    have hc : c ≠ ',' := by intro h; exact hp (by simp [h])
    have hcs : ',' ∉ cs := fun h => hp (List.mem_cons_of_mem c h)
    simp only [List.cons_append, List.takeWhile_cons]
    rw [if_pos (by simp [hc])]
    simpa using ih hcs

theorem dropWhile_append_comma {p : List Char} (hp : ',' ∉ p) (r : List Char) :
    (p ++ ',' :: r).dropWhile (fun c => c ≠ ',') = ',' :: r := by
  induction p with
  | nil => simp [List.dropWhile_cons]
  | cons c cs ih =>
    have hc : c ≠ ',' := by intro h; exact hp (by simp [h])
    have hcs : ',' ∉ cs := fun h => hp (List.mem_cons_of_mem c h)
    simp only [List.cons_append, List.dropWhile_cons]
    rw [if_pos (by simp [hc])]
    simpa using ih hcs

theorem parseRowFields_eq_amended (cs : List Char) :
    parseRowFields cs = c1AmendedFields cs := by
  obtain ⟨t, hs, hd⟩ := splitCommas_take_drop cs
  cases t with
  | nil =>
    replace hd : cs.dropWhile (fun c => c ≠ ',') = [] := hd
    simp only [ne_eq, decide_not] at hd hs
    simp [parseRowFields, c1AmendedFields, hd, hs]
  | cons b t2 =>
    replace hd : cs.dropWhile (fun c => c ≠ ',') = ',' :: joinCommas (b :: t2) := hd
    have hb : ',' ∉ b :=
      mem_splitCommas_no_comma cs b (by rw [hs]; exact List.mem_cons_of_mem _ (List.mem_cons_self b t2))
    cases t2 with
    | nil =>
      have hj : joinCommas [b] = b := rfl
      have hdrop : b.dropWhile (fun c => c ≠ ',') = [] := by
        rw [List.dropWhile_eq_nil_iff]
        intro c hc
        simp only [ne_eq, decide_eq_true_eq]
        intro hcc; exact hb (hcc ▸ hc)
      rw [hj] at hd
      simp only [ne_eq, decide_not] at hd hs hdrop
      simp [parseRowFields, c1AmendedFields, hd, hs, hdrop]
    | cons d t3 =>
      have hjoin : joinCommas (b :: d :: t3) = b ++ ',' :: joinCommas (d :: t3) := rfl
      have hdrop := dropWhile_append_comma hb (joinCommas (d :: t3))
      have htake := takeWhile_append_comma hb (joinCommas (d :: t3))
      rw [hjoin] at hd
      simp only [ne_eq, decide_not] at hd hs hdrop htake
      simp [parseRowFields, c1AmendedFields, hd, hs, hdrop, htake]

/-- Every successful `parseRow` is either the line-break segment (blank
row after trimming) or a segment built from `parseRowFields` with a
non-empty `text`. -/
theorem parseRow_shape (row : String) (s : Segment) (h : parseRow row = some s) :
    (trimL row.data = [] ∧ s = lineBreakSegment) ∨
    (trimL row.data ≠ [] ∧ ∃ v t f, parseRowFields row.data = (v, t, f) ∧ t ≠ [] ∧
      s = ⟨String.mk v, String.mk t,
           (match f with
            | some fs => if fs = [] then none else some (String.mk fs)
            | none => none), false⟩) := by
  by_cases htrim : trimL row.data = []
  · left
    refine ⟨htrim, ?_⟩
    simp only [parseRow, htrim, if_pos] at h
    exact (Option.some.inj h).symm
  · right
    refine ⟨htrim, ?_⟩
    simp only [parseRow, htrim, if_neg, if_false] at h
    rcases hpf : parseRowFields row.data with ⟨v, t, f⟩
    rw [hpf] at h
    by_cases ht : t = []
    · rw [if_pos ht] at h
      exact absurd h (by simp)
    · rw [if_neg ht] at h
      exact ⟨v, t, f, hpf ▸ rfl, ht, (Option.some.inj h).symm⟩

theorem parseRow_of_trim_nil {row : String} (h : trimL row.data = []) :
    parseRow row = some lineBreakSegment := by
  simp [parseRow, h]

/-- C1 (counterexample): on the line `"001, b"` the code produces
`text = "b"` — the part after the comma is trimmed — whereas the claim
says the part after the comma becomes `text` verbatim, i.e. `" b"`. -/
theorem c1_comma_split_counterexample :
    parseRow "001, b" = some ⟨"001", "b", none, false⟩ ∧
    c1LiteralFields ("001, b").data = ("001".data, " b".data, none) ∧
    (" b" : String) ≠ "b" := by
  refine ⟨by decide, by decide, by decide⟩

/-- C1 (amended): for every input line whose whitespace-trimmed content is
non-empty, the parser splits on the first two commas only, and every
extracted field is trimmed: with 0 commas the trimmed line becomes both
`voiceFile` and `text`; with 1 comma the trimmed part before the comma is
`voiceFile` and the trimmed part after it is `text`; with ≥ 2 commas the
trimmed first part is `voiceFile`, the trimmed middle part is `text`, and
the entire remainder after the second comma (further commas preserved) is
the furigana, trimmed, absent when empty. -/
theorem c1_comma_split_amended (row : String) (h : jsTrim row ≠ "") :
    parseRow row = c1AmendedRow row := by
  have hne : ¬ trimL row.data = [] := by
    intro he
    exact h (by simp [jsTrim, he])
  simp [parseRow, c1AmendedRow, hne, parseRowFields_eq_amended]

theorem c1_comma_split_amended_witness :
    jsTrim "001, b ,ga,kou" ≠ "" ∧
    parseRow "001, b ,ga,kou" = c1AmendedRow "001, b ,ga,kou" ∧
    parseRow "001, b ,ga,kou" = some ⟨"001", "b", some "ga,kou", false⟩ :=
  ⟨by decide, c1_comma_split_amended "001, b ,ga,kou" (by decide), by decide⟩

/-- C7 (counterexample): a row of two spaces is not empty after removing a
trailing carriage return, so the claim says it goes through the comma rule
and is dropped (no segment); the code instead tests `row.trim() === ''`
and emits a line-break segment for it. -/
theorem c7_line_break_counterexample :
    parseRow "  " = some lineBreakSegment ∧ c7ClaimRow "  " = none := by
  refine ⟨by decide, by decide⟩

/-- C7 (amended): a line-break segment is emitted exactly for rows that are
empty after whitespace-trimming (hence whitespace-only lines also yield
line-break segments rather than being dropped); a line-break segment always
has empty text, no audio and no furigana; and every non-line-break segment
in the parsed output has non-empty text. -/
theorem c7_line_break_amended :
    (∀ row : String, parseRow row = some lineBreakSegment ↔ jsTrim row = "") ∧
    (∀ row : String, ∀ s : Segment, parseRow row = some s → s.isLineBreak = true →
      s = lineBreakSegment) ∧
    (∀ text : String, ∀ s ∈ parseContent text, s.isLineBreak = false → s.text ≠ "") := by
  have hmk : ∀ l : List Char, String.mk l = "" → l = [] := by
    intro l hl
    have : (String.mk l).data = ("" : String).data := by rw [hl]
    simpa using this
  refine ⟨?_, ?_, ?_⟩
  · intro row
    constructor
    · intro h
      rcases parseRow_shape row lineBreakSegment h with ⟨ht, _⟩ | ⟨_, v, t, f, _, htne, hseg⟩
      · simp [jsTrim, ht]
      · have hfalse := congrArg Segment.isLineBreak hseg
        simp [lineBreakSegment] at hfalse
    · intro h
      exact parseRow_of_trim_nil (hmk _ h)
  · intro row s h hlb
    rcases parseRow_shape row s h with ⟨_, hs⟩ | ⟨_, v, t, f, _, htne, hseg⟩
    · exact hs
    · rw [hseg] at hlb
      simp at hlb
  · intro text s hmem hlb htext
    rcases List.mem_filterMap.mp hmem with ⟨row, _, hrow⟩
    rcases parseRow_shape (String.mk row) s hrow with ⟨_, hs⟩ | ⟨_, v, t, f, _, htne, hseg⟩
    · rw [hs] at hlb
      simp [lineBreakSegment] at hlb
    · rw [hseg] at htext
      exact htne (hmk t htext)

theorem c7_line_break_amended_witness :
    parseRow " \t " = some lineBreakSegment :=
  (c7_line_break_amended.1 " \t ").mpr (by decide)

/-- C3: after a successful fetch, the load step fails (with an
empty-content error) exactly when the text is empty or whitespace-only or
when the parse of a non-blank text yields zero segments; in every other
case it succeeds with the (non-empty) parsed segment list. -/
theorem c3_empty_content_error (text : String) :
    ((∃ e, loadSegments text = Except.error e) ↔
      (jsTrim text = "" ∨ parseContent text = [])) ∧
    (∀ segs, loadSegments text = Except.ok segs →
      segs = parseContent text ∧ segs ≠ []) := by
  by_cases h1 : jsTrim text = ""
  · refine ⟨⟨fun _ => Or.inl h1, fun _ => ⟨LoadError.emptyFile, by simp [loadSegments, h1]⟩⟩, ?_⟩
    intro segs hok
    simp [loadSegments, h1] at hok
  · by_cases h2 : parseContent text = []
    · refine ⟨⟨fun _ => Or.inr h2, fun _ => ⟨LoadError.noSegments, by simp [loadSegments, h1, h2]⟩⟩, ?_⟩
      intro segs hok
      simp [loadSegments, h1, h2] at hok
    · constructor
      · constructor
        · intro ⟨e, he⟩
          simp [loadSegments, h1, h2] at he
        · intro h
          exact absurd h (by simp [h1, h2])
      · intro segs hok
        simp only [loadSegments, if_neg h1, if_neg h2] at hok
        exact ⟨(Except.ok.inj hok).symm, by rw [← Except.ok.inj hok]; exact h2⟩

theorem c3_empty_content_error_witness :
    (∃ e, loadSegments "  " = Except.error e) ∧
    ([⟨"001", "b", none, false⟩] : List Segment) ≠ [] :=
  ⟨(c3_empty_content_error "  ").1.mpr (Or.inl (by decide)),
   ((c3_empty_content_error "001,b").2 [⟨"001", "b", none, false⟩] (by rfl)).2⟩

/-- C9: parsing is deterministic — it is a pure function of the input
text, so two runs on equal inputs give equal segment sequences (same
length and element-wise equal fields). -/
theorem c9_parse_deterministic (s t : String) (h : s = t) :
    parseContent s = parseContent t ∧
    (parseContent s).length = (parseContent t).length ∧
    ∀ i, (parseContent s).getD i lineBreakSegment =
      (parseContent t).getD i lineBreakSegment := by
  subst h
  exact ⟨rfl, rfl, fun _ => rfl⟩

theorem c9_parse_deterministic_witness :
    parseContent "001,b" = parseContent "001,b" :=
  (c9_parse_deterministic "001,b" "001,b" rfl).1

theorem firstNonLineBreakAux_add (segs : List Segment) (i : Nat) :
    firstNonLineBreakAux segs i =
      i + (segs.takeWhile (fun s => s.isLineBreak)).length := by
  induction segs generalizing i with
  | nil => simp [firstNonLineBreakAux]
  | cons s rest ih =>
    by_cases h : s.isLineBreak
    · simp only [firstNonLineBreakAux, h, if_true, List.takeWhile_cons, List.length_cons, ih]
      omega
    · simp only [firstNonLineBreakAux, h, if_false]
      simp [List.takeWhile_cons, h]

theorem takeWhile_lb_getD (segs : List Segment) :
    (∀ j, j < (segs.takeWhile (fun s => s.isLineBreak)).length →
      (segs.getD j lineBreakSegment).isLineBreak = true) ∧
    ((segs.takeWhile (fun s => s.isLineBreak)).length < segs.length →
      (segs.getD (segs.takeWhile (fun s => s.isLineBreak)).length
        lineBreakSegment).isLineBreak = false) := by
  induction segs with
  | nil => simp
  | cons s rest ih =>
    by_cases h : s.isLineBreak
    · constructor
      · intro j hj
        cases j with
        | zero => simpa using h
        | succ j =>
          simp only [List.takeWhile_cons, h, if_true, List.length_cons,
            Nat.add_lt_add_iff_right] at hj
          simpa using ih.1 j hj
      · intro hlt
        simp only [List.takeWhile_cons, h, if_true, List.length_cons,
          Nat.add_lt_add_iff_right] at hlt ⊢
        simpa using ih.2 hlt
    · constructor
      · intro j hj
        simp [List.takeWhile_cons, h] at hj
      · intro _
        simp [List.takeWhile_cons, h]

theorem takeWhile_lb_all (segs : List Segment)
    (h : ∀ s ∈ segs, s.isLineBreak = true) :
    segs.takeWhile (fun s => s.isLineBreak) = segs := by
  induction segs with
  | nil => rfl
  | cons s rest ih =>
    have hs := h s (List.mem_cons_self s rest)
    simp only [List.takeWhile_cons, hs, if_true]
    rw [ih (fun x hx => h x (List.mem_cons_of_mem s hx))]

/-- C10: after a successful load, the initial current-segment index is the
number of leading line-break segments — all segments before it are
line-breaks, the segment at it (when it exists) is not, and when the whole
sequence consists of line-breaks the index equals the sequence length. -/
theorem c10_initial_segment_index (text : String) (segs : List Segment)
    (h : loadSegments text = Except.ok segs) :
    initialCurrentSegment text = (segs.takeWhile (fun s => s.isLineBreak)).length ∧
    (∀ j, j < initialCurrentSegment text →
      (segs.getD j lineBreakSegment).isLineBreak = true) ∧
    (initialCurrentSegment text < segs.length →
      (segs.getD (initialCurrentSegment text) lineBreakSegment).isLineBreak = false) ∧
    ((∀ s ∈ segs, s.isLineBreak = true) → initialCurrentSegment text = segs.length) := by
  have hinit : initialCurrentSegment text =
      (segs.takeWhile (fun s => s.isLineBreak)).length := by
    simp only [initialCurrentSegment, h, firstNonLineBreak, firstNonLineBreakAux_add]
    omega
  refine ⟨hinit, ?_, ?_, ?_⟩
  · intro j hj
    rw [hinit] at hj
    exact (takeWhile_lb_getD segs).1 j hj
  · intro hlt
    rw [hinit] at hlt ⊢
    exact (takeWhile_lb_getD segs).2 hlt
  · intro hall
    rw [hinit, takeWhile_lb_all segs hall]

theorem c10_initial_segment_index_witness :
    initialCurrentSegment "\n\n001,b" = 2 := by
  have h := (c10_initial_segment_index "\n\n001,b"
    [lineBreakSegment, lineBreakSegment, ⟨"001", "b", none, false⟩] (by rfl)).1
  rw [h]
  decide

theorem mem_of_mem_dedupFirstAux {x : String} :
    ∀ (seen l : List String), x ∈ dedupFirstAux seen l → x ∈ l := by
  intro seen l
  induction l generalizing seen with
  | nil => intro h; simp [dedupFirstAux] at h
  | cons a l ih =>
    intro h
    by_cases ha : a ∈ seen
    · simp only [dedupFirstAux, if_pos ha] at h
      exact List.mem_cons_of_mem a (ih _ h)
    · simp only [dedupFirstAux, if_neg ha] at h
      rcases List.mem_cons.mp h with rfl | h2
      · exact List.mem_cons_self x l
      · exact List.mem_cons_of_mem a (ih _ h2)

theorem mem_of_mem_dedupFirst {x : String} {l : List String}
    (h : x ∈ dedupFirst l) : x ∈ l :=
  mem_of_mem_dedupFirstAux [] l h

theorem splitLastExt_decomp {cs b e : List Char}
    (h : splitLastExt cs = some (b, e)) : cs = b ++ '.' :: e := by
  simp only [splitLastExt] at h
  split at h
  case _ before heq =>
    split at h
    · exact absurd h (by simp)
    · have hb : b = before.reverse := by
        have := Option.some.inj h
        exact (congrArg Prod.fst this).symm
      have hsum : cs.reverse.takeWhile (fun c => c ≠ '.' && c ≠ '/') ++ ('.' :: before) =
          cs.reverse := by
        rw [← heq]
        exact List.takeWhile_append_dropWhile _ _
      have : cs = (cs.reverse.takeWhile (fun c => c ≠ '.' && c ≠ '/') ++
          ('.' :: before)).reverse := by
        rw [hsum, List.reverse_reverse]
      rw [this, hb]
      have he2 : e = (cs.reverse.takeWhile (fun c => c ≠ '.' && c ≠ '/')).reverse := by
        have := Option.some.inj h
        exact (congrArg Prod.snd this).symm
      rw [he2]
      simp [List.reverse_append]
  case _ =>
    exact absurd h (by simp)

theorem stripExt_ne_of_hasExt {s : String} (h : hasExt s = true) :
    stripExtStr s ≠ s := by
  unfold hasExt at h
  obtain ⟨⟨b, e⟩, hbe⟩ := Option.isSome_iff_exists.mp h
  have hdecomp := splitLastExt_decomp hbe
  unfold stripExtStr
  rw [hbe]
  intro heq
  have hb : b = s.data := by rw [← heq]
  rw [hdecomp] at hb
  have hlen := congrArg List.length hb
  simp only [List.length_append, List.length_cons] at hlen
  omega

theorem hasExt_append_wav (s : String) : hasExt (s ++ ".wav") = true := by
  have hdata : (s ++ ".wav").data = s.data ++ ['.', 'w', 'a', 'v'] := by
    simp [String.data_append]
  unfold hasExt splitLastExt
  rw [hdata]
  simp [List.reverse_append, List.takeWhile_cons, List.dropWhile_cons]

theorem hasExt_append_mp3 (s : String) : hasExt (s ++ ".mp3") = true := by
  have hdata : (s ++ ".mp3").data = s.data ++ ['.', 'm', 'p', '3'] := by
    simp [String.data_append]
  unfold hasExt splitLastExt
  rw [hdata]
  simp [List.reverse_append, List.takeWhile_cons, List.dropWhile_cons]

theorem fileCandidates_eq_claim (voiceFile : String) :
    fileCandidates voiceFile = claimFileCandidates voiceFile := by
  unfold fileCandidates claimFileCandidates claimBase
  by_cases he : hasExt (jsTrim voiceFile) = true
  · have hne : stripExtStr (jsTrim voiceFile) ≠ jsTrim voiceFile := stripExt_ne_of_hasExt he
    by_cases hb : stripExtStr (jsTrim voiceFile) = ""
    · simp [he, hb, hne]
    · simp [he, hb, hne]
  · have he' : hasExt (jsTrim voiceFile) = false := by simpa using he
    by_cases hb : jsTrim voiceFile = ""
    · have h0 : hasExt ("" : String) = false := by decide
      have h1 : stripExtStr ("" : String) = "" := by decide
      simp [he', hb, h0, h1]
    · simp [he', hb]

theorem claimFileCandidates_all_ext (voiceFile : String) :
    ∀ x ∈ claimFileCandidates voiceFile, hasExt x = true := by
  intro x hx
  unfold claimFileCandidates at hx
  have hx2 := mem_of_mem_dedupFirst hx
  rcases List.mem_append.mp hx2 with h | h
  · by_cases he : hasExt (jsTrim voiceFile) = true
    · rw [if_pos he] at h
      rcases List.mem_singleton.mp h with rfl
      exact he
    · rw [if_neg he] at h
      exact absurd h (List.not_mem_nil x)
  · by_cases hb : claimBase voiceFile ≠ ""
    · rw [if_pos hb] at h
      rcases List.mem_cons.mp h with rfl | h2
      · exact hasExt_append_wav _
      · rcases List.mem_singleton.mp h2 with rfl
        exact hasExt_append_mp3 _
    · rw [if_neg hb] at h
      exact absurd h (List.not_mem_nil x)

theorem sortExtFirst_of_all_ext {l : List String}
    (h : ∀ x ∈ l, hasExt x = true) : sortExtFirst l = l := by
  unfold sortExtFirst
  have h1 : l.filter (fun f => hasExt f) = l := List.filter_eq_self.mpr h
  have h2 : l.filter (fun f => !hasExt f) = [] := by
    rw [List.filter_eq_nil_iff]
    intro a ha
    simp [h a ha]
  rw [h1, h2, List.append_nil]

theorem flatMap_const_nil (l : List String) :
    (l.flatMap (fun _ => ([] : List String))) = [] := by
  induction l with
  | nil => rfl
  | cons a l ih => simp [ih]

theorem storyDirCandidates_eq_claim (settings : TextAppSettings) :
    storyDirCandidates settings = claimDirCandidates settings := rfl

theorem resolveAudioPath_eq_find (ctx : Bool) (net : String → Option ProbeResponse)
    (basePath voiceFile : String) (settings : TextAppSettings) :
    resolveAudioPath ctx net basePath voiceFile settings =
      (claimVoicePaths basePath voiceFile settings).find? (fun p => probeOk ctx (net p)) := by
  unfold resolveAudioPath claimVoicePaths
  by_cases hemp : (fileCandidates voiceFile).isEmpty = true
  · have hnil : fileCandidates voiceFile = [] := by
      simpa [List.isEmpty_iff] using hemp
    have hnil2 : claimFileCandidates voiceFile = [] := by
      rw [← fileCandidates_eq_claim]; exact hnil
    simp [hemp, hnil2, flatMap_const_nil]
  · by_cases hdemp : (storyDirCandidates settings).isEmpty = true
    · have hnil : storyDirCandidates settings = [] := by
        simpa [List.isEmpty_iff] using hdemp
      have hnil2 : claimDirCandidates settings = [] := by
        rw [← storyDirCandidates_eq_claim]; exact hnil
      simp [hemp, hdemp, hnil2]
    · have hsort : sortExtFirst (claimFileCandidates voiceFile) = claimFileCandidates voiceFile :=
        sortExtFirst_of_all_ext (claimFileCandidates_all_ext voiceFile)
      have hne1 : ¬ claimFileCandidates voiceFile = [] := by
        rw [← fileCandidates_eq_claim]
        simpa [List.isEmpty_iff] using hemp
      have hne2 : ¬ claimDirCandidates settings = [] := by
        rw [← storyDirCandidates_eq_claim]
        simpa [List.isEmpty_iff] using hdemp
      simp [hemp, hdemp, fileCandidates_eq_claim, storyDirCandidates_eq_claim, hsort,
        hne1, hne2]

/-- C4: for every probe oracle, path resolution returns exactly the first
accepted path of the claim's candidate enumeration — directory candidates
(story base name, then the same without the numeric prefix, de-duplicated)
major, file candidates (the audioRef as-is first when it has an extension,
followed by base + `.wav` then base + `.mp3`, de-duplicated) minor — and
returns `none` exactly when every candidate is rejected; in particular,
for audioRef `"001"` with only the `.mp3` asset present, resolution
returns the `.mp3` path after the `.wav` probe fails. -/
theorem c4_resolution_order :
    (∀ (ctx : Bool) (net : String → Option ProbeResponse) (basePath voiceFile : String)
        (settings : TextAppSettings),
      resolveAudioPath ctx net basePath voiceFile settings =
        (claimVoicePaths basePath voiceFile settings).find? (fun p => probeOk ctx (net p)) ∧
      (resolveAudioPath ctx net basePath voiceFile settings = none ↔
        ∀ p ∈ claimVoicePaths basePath voiceFile settings, probeOk ctx (net p) = false)) ∧
    resolveAudioPath true exampleNet "" "001" exampleSettings =
      some "/data/voice/g1/story/001.mp3" := by
  constructor
  · intro ctx net basePath voiceFile settings
    refine ⟨resolveAudioPath_eq_find ctx net basePath voiceFile settings, ?_⟩
    rw [resolveAudioPath_eq_find ctx net basePath voiceFile settings, List.find?_eq_none]
    simp
  · rfl

theorem c4_resolution_order_witness :
    resolveAudioPath true exampleNet "" "001" exampleSettings =
      (claimVoicePaths "" "001" exampleSettings).find? (fun p => probeOk true (exampleNet p)) :=
  (c4_resolution_order.1 true exampleNet "" "001" exampleSettings).1

/-- C5 (counterexample): the claim accepts a 200 response with absent
content-type and decodable bytes, but the code's decode fallback requires
status 206, so the probe loop rejects it and moves on. -/
theorem c5_probe_acceptance_counterexample :
    claimAccept c5Response = true ∧ probeAccept true c5Response = false := by
  refine ⟨by decide, by decide⟩

/-- C5 (amended): a probed candidate is accepted iff the response is
successful (ok or 206) and either its content-type starts with `audio/`,
or the response status is exactly 206 with an absent/empty content-type,
the audio engine is initialized, and the retrieved bytes decode as audio;
a successful response with a present non-audio content-type is rejected
(and the resolution loop then tries the next candidate, cf. C4). -/
theorem c5_probe_acceptance_amended (ctxAvailable : Bool) (r : ProbeResponse) :
    probeAccept ctxAvailable r = amendedAccept ctxAvailable r := by
  unfold probeAccept amendedAccept
  cases h1 : respOk r <;>
    cases h2 : r.status == 206 <;>
      cases h3 : startsWithL "audio/" (probeContentType r) <;>
        cases h4 : probeContentType r == "" <;>
          cases ctxAvailable <;>
            cases h5 : r.decodable <;>
              simp [h1, h2, h3, h4, h5]

theorem filterMap_congr_mem {α β : Type} {f g : α → Option β} :
    ∀ l : List α, (∀ a ∈ l, f a = g a) → l.filterMap f = l.filterMap g := by
  intro l
  induction l with
  | nil => intro _; rfl
  | cons a l ih =>
    intro h
    rw [List.filterMap_cons, List.filterMap_cons, h a (List.mem_cons_self a l),
      ih (fun x hx => h x (List.mem_cons_of_mem a hx))]

theorem lookup_cons_self (i : Nat) (v : String) (l : List (Nat × String)) :
    ((i, v) :: l).lookup i = some v := by
  simp [List.lookup]

theorem lookup_cons_ne {i k : Nat} (h : i ≠ k) (v : String) (l : List (Nat × String)) :
    ((k, v) :: l).lookup i = l.lookup i := by
  have hb : (i == k) = false := beq_eq_false_iff_ne.mpr h
  simp [List.lookup, hb]

theorem lookup_none_of_not_mem_fst {i : Nat} :
    ∀ l : List (Nat × String), i ∉ l.map Prod.fst → l.lookup i = none := by
  intro l
  induction l with
  | nil => intro _; rfl
  | cons p l ih =>
    intro h
    obtain ⟨k, v⟩ := p
    have h1 : i ≠ k := by
      intro he
      exact h (by simp [he])
    have h2 : i ∉ l.map Prod.fst := fun hm => h (by simp [hm])
    rw [lookup_cons_ne h1, ih h2]

theorem rubyPairs_renderLoop (cs : List Char) (fmap : List (Nat × String)) :
    ∀ (ms : List (Nat × Char)) (lastIndex : Nat),
      rubyPairs (renderLoop cs fmap ms lastIndex) =
        ms.filterMap (fun m =>
          match fmap.lookup m.1 with
          | some furi => if furi ≠ "" then some (String.mk [m.2], furi) else none
          | none => none) := by
  intro ms
  induction ms with
  | nil =>
    intro lastIndex
    by_cases h : lastIndex < cs.length <;> simp [renderLoop, rubyPairs, h]
  | cons m ms ih =>
    intro lastIndex
    obtain ⟨i, k⟩ := m
    have htail := ih (i + 1)
    simp only [rubyPairs] at htail ⊢
    simp only [renderLoop, List.filterMap_append, List.filterMap_cons, htail]
    cases hl : fmap.lookup i with
    | none =>
      by_cases hlt : lastIndex < i <;> simp [hl, hlt]
    | some furi =>
      by_cases hf : furi = "" <;> by_cases hlt : lastIndex < i <;> simp [hl, hlt, hf]

theorem kanjiMatches_fst_nodup (cs : List Char) :
    ((kanjiMatches cs).map Prod.fst).Nodup := by
  unfold kanjiMatches
  have hsub : List.Sublist ((cs.enum.filter (fun p => isKanji p.2)).map Prod.fst)
      (cs.enum.map Prod.fst) :=
    (List.filter_sublist _).map Prod.fst
  rw [List.enum_map_fst] at hsub
  exact List.Nodup.sublist hsub (List.nodup_range cs.length)

theorem kanjiMatches_snd (cs : List Char) :
    (kanjiMatches cs).map Prod.snd = cs.filter (fun c => isKanji c) := by
  unfold kanjiMatches
  conv_rhs => rw [← List.enum_map_snd cs]
  rw [List.filter_map]
  rfl

theorem zip_assoc_fst_mem {ms : List (Nat × Char)} {rs : List String}
    {pr : Nat × String}
    (h : pr ∈ (ms.zip rs).filterMap (fun p =>
      if p.2 ≠ "" then some (p.1.1, p.2) else none)) :
    pr.1 ∈ ms.map Prod.fst := by
  rcases List.mem_filterMap.mp h with ⟨p, hp, hsome⟩
  by_cases hr : p.2 ≠ ""
  · rw [if_pos hr] at hsome
    have := Option.some.inj hsome
    have hfst : pr.1 = p.1.1 := by rw [← this]
    rw [hfst]
    exact List.mem_map_of_mem Prod.fst (List.of_mem_zip hp).1
  · rw [if_neg hr] at hsome
    exact absurd hsome (by simp)

theorem assign_zip (ms : List (Nat × Char)) (rs : List String)
    (hnd : (ms.map Prod.fst).Nodup) :
    ms.filterMap (fun m =>
      match ((ms.zip rs).filterMap (fun p =>
          if p.2 ≠ "" then some (p.1.1, p.2) else none)).lookup m.1 with
      | some furi => if furi ≠ "" then some (String.mk [m.2], furi) else none
      | none => none) =
    ((ms.map (fun m => String.mk [m.2])).zip rs).filterMap (fun p =>
      if p.2 ≠ "" then some (p.1, p.2) else none) := by
  induction ms generalizing rs with
  | nil => simp
  | cons m ms ih =>
    obtain ⟨i, k⟩ := m
    have hi : i ∉ ms.map Prod.fst := (List.nodup_cons.mp (by simpa using hnd)).1
    have hnd' : (ms.map Prod.fst).Nodup := (List.nodup_cons.mp (by simpa using hnd)).2
    cases rs with
    | nil =>
      simp only [List.zip_nil_right, List.filterMap_nil, List.map_cons]
      rw [List.filterMap_eq_nil_iff]
      intro m hm
      simp [List.lookup]
    | cons r rs' =>
      have hassoc : (((i, k) :: ms).zip (r :: rs')).filterMap (fun p =>
          if p.2 ≠ "" then some (p.1.1, p.2) else none) =
          (if r ≠ "" then [(i, r)] else []) ++
            ((ms.zip rs').filterMap (fun p =>
              if p.2 ≠ "" then some (p.1.1, p.2) else none)) := by
        by_cases hr : r ≠ "" <;> simp [List.zip_cons_cons, List.filterMap_cons, hr]
      have hlook_tail : ∀ m ∈ ms,
          ((((i, k) :: ms).zip (r :: rs')).filterMap (fun p =>
            if p.2 ≠ "" then some (p.1.1, p.2) else none)).lookup m.1 =
          ((ms.zip rs').filterMap (fun p =>
            if p.2 ≠ "" then some (p.1.1, p.2) else none)).lookup m.1 := by
        intro m hm
        rw [hassoc]
        have hne : m.1 ≠ i := by
          intro he
          exact hi (he ▸ List.mem_map_of_mem Prod.fst hm)
        by_cases hr : r ≠ ""
        · rw [if_pos hr, List.singleton_append, lookup_cons_ne hne]
        · rw [if_neg hr, List.nil_append]
      have hlook_head :
          ((((i, k) :: ms).zip (r :: rs')).filterMap (fun p =>
            if p.2 ≠ "" then some (p.1.1, p.2) else none)).lookup i =
          (if r ≠ "" then some r else none) := by
        rw [hassoc]
        have hnone : ((ms.zip rs').filterMap (fun p =>
            if p.2 ≠ "" then some (p.1.1, p.2) else none)).lookup i = none := by
          apply lookup_none_of_not_mem_fst
          intro hmem
          rcases List.mem_map.mp hmem with ⟨pr, hpr, hfst⟩
          exact hi (hfst ▸ zip_assoc_fst_mem hpr)
        by_cases hr : r ≠ ""
        · rw [if_pos hr, List.singleton_append, lookup_cons_self, if_pos hr]
        · rw [if_neg hr, List.nil_append, hnone, if_neg hr]
      rw [List.filterMap_cons, hlook_head]
      rw [filterMap_congr_mem ms (fun m hm => by rw [hlook_tail m hm])]
      rw [ih rs' hnd']
      by_cases hr : r ≠ ""
      · simp [List.zip_cons_cons, List.filterMap_cons, hr]
      · simp [List.zip_cons_cons, List.filterMap_cons, hr]

theorem assign_single (m0 : Nat × Char) (ms' : List (Nat × Char)) (f : String)
    (hnd : ((m0 :: ms').map Prod.fst).Nodup) (hf : f ≠ "") :
    (m0 :: ms').filterMap (fun m =>
      match ([(m0.1, f)] : List (Nat × String)).lookup m.1 with
      | some furi => if furi ≠ "" then some (String.mk [m.2], furi) else none
      | none => none) = [(String.mk [m0.2], f)] := by
  obtain ⟨i, k⟩ := m0
  have hi : i ∉ ms'.map Prod.fst := (List.nodup_cons.mp (by simpa using hnd)).1
  rw [List.filterMap_cons]
  have htail : ms'.filterMap (fun m =>
      match ([(i, f)] : List (Nat × String)).lookup m.1 with
      | some furi => if furi ≠ "" then some (String.mk [m.2], furi) else none
      | none => none) = [] := by
    rw [List.filterMap_eq_nil_iff]
    intro m hm
    have hne : m.1 ≠ i := fun he => hi (he ▸ List.mem_map_of_mem Prod.fst hm)
    rw [lookup_cons_ne hne]
    simp [List.lookup]
  simp only [ne_eq, ite_not] at htail
  simp [lookup_cons_self, htail, hf]

/-- One piece of claim C6 packaged for reuse: the rendered ruby pairs of a
non-empty furigana over a text. -/
theorem rubyPairs_render_eq (text f : String) (hf : f ≠ "") :
    rubyPairs (renderTextWithFurigana text (some f)) = expectedRubyPairs text f := by
  simp only [renderTextWithFurigana, expectedRubyPairs]
  rw [if_neg hf]
  by_cases hms : (kanjiMatches text.data).isEmpty = true
  · have hnil : kanjiMatches text.data = [] := by simpa [List.isEmpty_iff] using hms
    have hocc : text.data.filter (fun c => isKanji c) = [] := by
      rw [← kanjiMatches_snd, hnil]
      rfl
    by_cases hc : containsComma f = true <;>
      simp [hms, hnil, hocc, rubyPairs, hc]
  · have hne : ¬ kanjiMatches text.data = [] := by simpa [List.isEmpty_iff] using hms
    rw [if_neg hms, rubyPairs_renderLoop]
    unfold furiganaByIndex
    by_cases hc : containsComma f = true
    · rw [if_pos hc, if_pos hc]
      rw [assign_zip _ _ (kanjiMatches_fst_nodup text.data)]
      have hocc : (text.data.filter (fun c => isKanji c)).map (fun c => String.mk [c]) =
          (kanjiMatches text.data).map (fun m => String.mk [m.2]) := by
        rw [← kanjiMatches_snd, List.map_map]
        rfl
      rw [hocc]
    · rw [if_neg hc, if_neg hc]
      cases hms' : kanjiMatches text.data with
      | nil => exact absurd hms' hne
      | cons m0 ms' =>
        have hnd : ((m0 :: ms').map Prod.fst).Nodup := by
          rw [← hms']
          exact kanjiMatches_fst_nodup text.data
        rw [assign_single m0 ms' f hnd hf]
        have hocc : (text.data.filter (fun c => isKanji c)).map (fun c => String.mk [c]) =
            String.mk [m0.2] :: ms'.map (fun m => String.mk [m.2]) := by
          rw [← kanjiMatches_snd, hms']
          simp
        rw [hocc]

/-- C6 (counterexample): U+9FB0 lies in the CJK Unified Ideographs block,
so per the claim the comma-free furigana `"yo"` should annotate it as the
first (and only) ideograph of the text; the code's regex stops at U+9FAF,
finds no ideograph, and renders the text plain with no annotation. -/
theorem c6_furigana_counterexample :
    claimIsCJK u9FB0 = true ∧
    claimExpectedRubyPairs (String.mk [u9FB0]) "yo" = [(String.mk [u9FB0], "yo")] ∧
    renderTextWithFurigana (String.mk [u9FB0]) (some "yo") =
      [RenderItem.plain (String.mk [u9FB0])] ∧
    rubyPairs (renderTextWithFurigana (String.mk [u9FB0]) (some "yo")) = [] := by
  refine ⟨by decide, by decide, by decide, by decide⟩

/-- C6 (amended): for every text and non-empty furigana, with ideographs
taken to be the characters in the code's range U+4E00 to U+9FAF (a
subrange of the CJK Unified Ideographs block), the renderer behaves as
claimed: no comma applies the whole string to the first ideograph only;
with commas the i-th trimmed reading goes to the i-th ideograph
occurrence, an empty slot skips it, extra readings are ignored, missing
readings leave ideographs unannotated; and only ideographs are ever
annotated. -/
theorem c6_furigana_amended (text f : String) (hf : f ≠ "") :
    rubyPairs (renderTextWithFurigana text (some f)) = expectedRubyPairs text f ∧
    ∀ p ∈ rubyPairs (renderTextWithFurigana text (some f)),
      ∃ c, p.1 = String.mk [c] ∧ isKanji c = true := by
  refine ⟨rubyPairs_render_eq text f hf, ?_⟩
  intro p hp
  rw [rubyPairs_render_eq text f hf] at hp
  unfold expectedRubyPairs at hp
  by_cases hc : containsComma f = true
  · rw [if_pos hc] at hp
    rcases List.mem_filterMap.mp hp with ⟨pr, hpr, hsome⟩
    by_cases hr : pr.2 ≠ ""
    · rw [if_pos hr] at hsome
      have hinj := Option.some.inj hsome
      have h1 : p.1 = pr.1 := by rw [← hinj]
      have hmem := (List.of_mem_zip hpr).1
      rcases List.mem_map.mp hmem with ⟨c, hcf, hcs⟩
      exact ⟨c, by rw [h1, ← hcs], (List.mem_filter.mp hcf).2⟩
    · rw [if_neg hr] at hsome
      exact absurd hsome (by simp)
  · rw [if_neg hc] at hp
    cases hocc : (text.data.filter (fun c => isKanji c)).map (fun c => String.mk [c]) with
    | nil =>
      rw [hocc] at hp
      exact absurd hp (List.not_mem_nil p)
    | cons c0 occs' =>
      rw [hocc] at hp
      have hp2 : p = (c0, f) := List.mem_singleton.mp hp
      have hc0 : c0 ∈ (text.data.filter (fun c => isKanji c)).map (fun c => String.mk [c]) := by
        rw [hocc]
        exact List.mem_cons_self c0 occs'
      rcases List.mem_map.mp hc0 with ⟨c, hcf, hcs⟩
      exact ⟨c, by rw [hp2, ← hcs], (List.mem_filter.mp hcf).2⟩

theorem c6_furigana_amended_witness :
    rubyPairs (renderTextWithFurigana "図書室" (some "と,,しつ")) =
      [("図", "と"), ("室", "しつ")] := by
  have h := (c6_furigana_amended "図書室" "と,,しつ" (by decide)).1
  rw [h]
  decide

theorem stopCurrentSource_nextId (s : PlaybackState) :
    (stopCurrentSource s).nextId = s.nextId := by
  cases hc : s.currentSource with
  | none => simp [stopCurrentSource, hc]
  | some c => simp [stopCurrentSource, hc]

/-- `playAudio`'s unconditional stop: after `stopCurrentSource`, no
playback with the previously tracked id remains audible. -/
theorem stopCurrentSource_removes {s : PlaybackState} {c : Nat}
    (h : s.currentSource = some c) :
    ∀ p ∈ (stopCurrentSource s).playing, p.1 ≠ c := by
  intro p hp
  simp only [stopCurrentSource, h] at hp
  have hne := (List.mem_filter.mp hp).2
  simpa using hne

theorem stopCurrentSource_inv {s : PlaybackState} (h : PlaybackInv s) :
    PlaybackInv (stopCurrentSource s) := by
  obtain ⟨hb, hcur⟩ := h
  cases hc : s.currentSource with
  | none => simpa [stopCurrentSource, hc] using ⟨hb, hcur⟩
  | some c =>
    refine ⟨?_, ?_⟩
    · intro p hp
      simp only [stopCurrentSource, hc] at hp ⊢
      exact hb p (List.mem_of_mem_filter hp)
    · intro c' hc'
      simp only [stopCurrentSource, hc] at hc'
      exact absurd hc' (by simp)

theorem playbackStep_inv {s : PlaybackState} (e : PlaybackEv)
    (h : PlaybackInv s) : PlaybackInv (playbackStep s e) := by
  cases e with
  | seg o =>
    obtain ⟨hb, hcur⟩ := stopCurrentSource_inv h
    cases o with
    | noPath => exact ⟨hb, hcur⟩
    | graphPlay =>
      refine ⟨?_, ?_⟩
      · intro p hp
        simp only [playbackStep] at hp ⊢
        rcases List.mem_cons.mp hp with rfl | hp2
        · exact Nat.lt_succ_self _
        · exact Nat.lt_trans (hb p hp2) (Nat.lt_succ_self _)
      · intro c' hc'
        simp only [playbackStep] at hc' ⊢
        rw [Option.some.inj hc']
        exact Nat.lt_succ_self _
    | fallbackPlay =>
      refine ⟨?_, ?_⟩
      · intro p hp
        simp only [playbackStep] at hp ⊢
        rcases List.mem_cons.mp hp with rfl | hp2
        · exact Nat.lt_succ_self _
        · exact Nat.lt_trans (hb p hp2) (Nat.lt_succ_self _)
      · intro c' hc'
        simp only [playbackStep] at hc' ⊢
        exact Nat.lt_trans (hcur c' hc') (Nat.lt_succ_self _)
  | stopOnly => exact stopCurrentSource_inv h
  | ended i =>
    obtain ⟨hb, hcur⟩ := h
    refine ⟨?_, ?_⟩
    · intro p hp
      simp only [playbackStep] at hp ⊢
      exact hb p (List.mem_of_mem_filter hp)
    · intro c' hc'
      simp only [playbackStep] at hc' ⊢
      by_cases hg : i ∈ s.graphIds
      · rw [if_pos hg] at hc'
        exact absurd hc' (by simp)
      · rw [if_neg hg] at hc'
        exact hcur c' hc'

theorem runPlayback_inv (evs : List PlaybackEv) :
    PlaybackInv (runPlayback evs) := by
  have hgen : ∀ (l : List PlaybackEv) (s : PlaybackState), PlaybackInv s →
      PlaybackInv (l.foldl playbackStep s) := by
    intro l
    induction l with
    | nil => intro s hs; exact hs
    | cons e l ih =>
      intro s hs
      exact ih (playbackStep s e) (playbackStep_inv e hs)
  exact hgen evs initPlayback ⟨by simp [initPlayback], by simp [initPlayback]⟩

/-- C2 (counterexample): two consecutive voice-on segments both played via
the fallback media-element path (audio context unavailable or decoding
failed), with the user advancing before the first finishes: the first
element is never stopped, so two playbacks are audible at once — the
claimed "at most one audio source in the playing state" is violated. -/
theorem c2_no_overlap_counterexample :
    playingCount (runPlayback
      [PlaybackEv.seg PlayOutcome.fallbackPlay,
       PlaybackEv.seg PlayOutcome.fallbackPlay]) = 2 := by
  decide

/-- C2 (amended): what survives of the no-overlap claim is the
per-transition guarantee — in every reachable session state, a segment
transition stops the playback tracked by `currentSourceRef` before the
new segment's playback begins, so the previously tracked source is never
still audible after the transition (first conjunct). Overlap is
nonetheless reachable, and not only through the untracked fallback
elements of the counterexample: a stopped source's stale `onended` fires
after the next source is tracked and unconditionally clears
`currentSourceRef`, orphaning the new source, which no later transition
stops — after `graphPlay, graphPlay, ended 0, graphPlay` two audio-graph
sources are audible at once (second conjunct). -/
theorem c2_no_overlap_amended :
    (∀ (evs : List PlaybackEv) (o : PlayOutcome) (c : Nat),
      (runPlayback evs).currentSource = some c →
      ∀ p ∈ (runPlayback (evs ++ [PlaybackEv.seg o])).playing, p.1 ≠ c) ∧
    graphPlayingCount (runPlayback
      [PlaybackEv.seg PlayOutcome.graphPlay,
       PlaybackEv.seg PlayOutcome.graphPlay,
       PlaybackEv.ended 0,
       PlaybackEv.seg PlayOutcome.graphPlay]) = 2 := by
  constructor
  · intro evs o c hcur p hp
    have hinv := runPlayback_inv evs
    have hclt : c < (runPlayback evs).nextId := hinv.2 c hcur
    have hrw : runPlayback (evs ++ [PlaybackEv.seg o]) =
        playbackStep (runPlayback evs) (PlaybackEv.seg o) := by
      simp [runPlayback, List.foldl_append]
    rw [hrw] at hp
    have hstop := stopCurrentSource_removes hcur
    have hnext := stopCurrentSource_nextId (runPlayback evs)
    cases o with
    | noPath =>
      simp only [playbackStep] at hp
      exact hstop p hp
    | graphPlay =>
      simp only [playbackStep] at hp
      rcases List.mem_cons.mp hp with rfl | hp2
      · simp only [hnext]
        omega
      · exact hstop p hp2
    | fallbackPlay =>
      simp only [playbackStep] at hp
      rcases List.mem_cons.mp hp with rfl | hp2
      · simp only [hnext]
        omega
      · exact hstop p hp2
  · decide

theorem c2_no_overlap_amended_witness :
    (runPlayback [PlaybackEv.seg PlayOutcome.graphPlay]).currentSource = some 0 ∧
    ∀ p ∈ (runPlayback ([PlaybackEv.seg PlayOutcome.graphPlay] ++
        [PlaybackEv.seg PlayOutcome.graphPlay])).playing, p.1 ≠ 0 :=
  ⟨by decide,
   c2_no_overlap_amended.1 [PlaybackEv.seg PlayOutcome.graphPlay]
     PlayOutcome.graphPlay 0 (by decide)⟩

theorem preload_disposed_step {segs : List Segment} {res : Nat → Option String}
    {s s' : PreloadState} {a : PreloadAct}
    (h : PreloadStep segs res s a s') (hd : s.disposed = true) :
    (∀ i, a ≠ PreloadAct.resolve i) ∧ (∀ i, a ≠ PreloadAct.cacheStore i) ∧
    s'.disposed = true ∧ s'.cache = s.cache := by
  cases h with
  | startResolve hpc hd' hlt hv => rw [hd'] at hd; exact absurd hd (by simp)
  | skipNoVoice hpc hd' hlt hv => rw [hd'] at hd; exact absurd hd (by simp)
  | breakDisposed hpc hd' => exact ⟨by simp, by simp, hd, rfl⟩
  | loopEnd hpc hd' hge => rw [hd'] at hd; exact absurd hd (by simp)
  | afterResolveHit p hpc hd' hres => rw [hd'] at hd; exact absurd hd (by simp)
  | afterResolveMiss hpc hmiss => exact ⟨by simp, by simp, hd, rfl⟩
  | disposeEv hd' => rw [hd'] at hd; exact absurd hd (by simp)

theorem preload_disposed_trace {segs : List Segment} {res : Nat → Option String}
    {s s' : PreloadState} {acts : List PreloadAct}
    (h : PreloadTrace segs res s acts s') (hd : s.disposed = true) :
    (∀ i, PreloadAct.resolve i ∉ acts) ∧ (∀ i, PreloadAct.cacheStore i ∉ acts) ∧
    s'.disposed = true ∧ s'.cache = s.cache := by
  induction h with
  | nil s => exact ⟨by simp, by simp, hd, rfl⟩
  | cons hstep htr ih =>
    obtain ⟨ha1, ha2, hd', hc'⟩ := preload_disposed_step hstep hd
    obtain ⟨hr, hcs, hdf, hcf⟩ := ih hd'
    refine ⟨?_, ?_, hdf, hcf.trans hc'⟩
    · intro i hmem
      rcases List.mem_cons.mp hmem with he | hmem2
      · exact ha1 i he.symm
      · exact hr i hmem2
    · intro i hmem
      rcases List.mem_cons.mp hmem with he | hmem2
      · exact ha2 i he.symm
      · exact hcs i hmem2

theorem preload_trace_append {segs : List Segment} {res : Nat → Option String} :
    ∀ (acts1 : List PreloadAct) {acts2 : List PreloadAct} {s s'' : PreloadState},
      PreloadTrace segs res s (acts1 ++ acts2) s'' →
      ∃ mid, PreloadTrace segs res s acts1 mid ∧ PreloadTrace segs res mid acts2 s'' := by
  intro acts1
  induction acts1 with
  | nil =>
    intro acts2 s s'' h
    exact ⟨s, PreloadTrace.nil s, h⟩
  | cons a acts ih =>
    intro acts2 s s'' h
    cases h with
    | cons hstep htr =>
      obtain ⟨mid, h1, h2⟩ := ih htr
      exact ⟨mid, PreloadTrace.cons hstep h1, h2⟩

theorem preload_dispose_post {segs : List Segment} {res : Nat → Option String}
    {s s' : PreloadState}
    (h : PreloadStep segs res s PreloadAct.dispose s') :
    s'.disposed = true ∧ s'.cache = [] := by
  cases h with
  | disposeEv hd => exact ⟨rfl, rfl⟩

theorem c8_disposal_halts_preload (segs : List Segment) (res : Nat → Option String)
    (acts1 acts2 : List PreloadAct) (sEnd : PreloadState)
    (h : PreloadTrace segs res initPreload (acts1 ++ PreloadAct.dispose :: acts2) sEnd) :
    (∀ i, PreloadAct.resolve i ∉ acts2) ∧
    (∀ i, PreloadAct.cacheStore i ∉ acts2) ∧
    sEnd.disposed = true ∧ sEnd.cache = [] := by
  obtain ⟨mid, h1, h2⟩ := preload_trace_append acts1 h
  cases h2 with
  | cons hstep htr =>
    obtain ⟨hd, hc⟩ := preload_dispose_post hstep
    obtain ⟨hr, hcs, hdf, hcf⟩ := preload_disposed_trace htr hd
    exact ⟨hr, hcs, hdf, hcf.trans hc⟩

theorem c8_disposal_halts_preload_witness :
    (∀ i, PreloadAct.resolve i ∉ [PreloadAct.finish]) ∧
    (∀ i, PreloadAct.cacheStore i ∉ [PreloadAct.finish]) ∧
    (⟨0, PreloadPc.finished, true, []⟩ : PreloadState).disposed = true ∧
    (⟨0, PreloadPc.finished, true, []⟩ : PreloadState).cache = [] := by
  have htr : PreloadTrace [⟨"001", "b", none, false⟩] (fun _ => none) initPreload
      ([] ++ PreloadAct.dispose :: [PreloadAct.finish])
      ⟨0, PreloadPc.finished, true, []⟩ := by
    refine PreloadTrace.cons (PreloadStep.disposeEv initPreload rfl) ?_
    exact PreloadTrace.cons
      (PreloadStep.breakDisposed ⟨0, PreloadPc.top, true, []⟩ rfl rfl)
      (PreloadTrace.nil _)
  exact c8_disposal_halts_preload [⟨"001", "b", none, false⟩] (fun _ => none)
    [] [PreloadAct.finish] ⟨0, PreloadPc.finished, true, []⟩ htr
